import Mathlib

/-!
Verification of the grounding and rule-loading core of
gpsr_command_understanding/generator/generator.py.

The embedding translates the source functions into executable Lean
definitions.  Helper routines that the source imports from
gpsr_command_understanding.util (get_wildcards, get_wildcards_forest,
replace_child_in_tree) are not part of the given sources; they are
modelled from the spec, as marked on their doc comments.
-/

namespace GpsrGen

/-- A placeholder occurring in a tree.  Models the WildCard value used by
generator.py: a name (knowledge-base category) and an optional co-reference
id; the empty string models an absent id (Python falsy id). -/
structure Wildcard where
  name : String
  id : String
deriving DecidableEq, Repr

/-- The tree data type shared by productions and semantic annotations.
Models the lark Tree used by generator.py: an interior node carries a label
and an ordered list of children; leaves are plain tokens or wildcards.
A knowledge-base candidate substituted for a wildcard appears as a token. -/
inductive GTree where
  | node : String → List GTree → GTree
  | tok : String → GTree
  | wc : Wildcard → GTree
deriving Repr, Inhabited

/-- The derived decidable equality on wildcards, named so that it can be
used inside the mutual recursion below. -/
abbrev wildcardDecEq : DecidableEq Wildcard := inferInstance

mutual
/-- Decidable structural equality on trees (lark trees compare
structurally; generator.py uses them as dict keys). -/
def GTree.decEq : (a b : GTree) → Decidable (a = b)
  | .node a cs, .node b ds =>
    match String.decEq a b, GTree.decEqList cs ds with
    | isTrue h1, isTrue h2 => isTrue (by rw [h1, h2])
    | isFalse h1, _ => isFalse (fun h => by cases h; exact h1 rfl)
    | _, isFalse h2 => isFalse (fun h => by cases h; exact h2 rfl)
  | .node _ _, .tok _ => isFalse (fun h => by cases h)
  | .node _ _, .wc _ => isFalse (fun h => by cases h)
  | .tok _, .node _ _ => isFalse (fun h => by cases h)
  | .tok a, .tok b =>
    match String.decEq a b with
    | isTrue h1 => isTrue (by rw [h1])
    | isFalse h1 => isFalse (fun h => by cases h; exact h1 rfl)
  | .tok _, .wc _ => isFalse (fun h => by cases h)
  | .wc _, .node _ _ => isFalse (fun h => by cases h)
  | .wc _, .tok _ => isFalse (fun h => by cases h)
  | .wc a, .wc b =>
    match wildcardDecEq a b with
    | isTrue h1 => isTrue (by rw [h1])
    | isFalse h1 => isFalse (fun h => by cases h; exact h1 rfl)

def GTree.decEqList : (a b : List GTree) → Decidable (a = b)
  | [], [] => isTrue rfl
  | [], _ :: _ => isFalse (fun h => by cases h)
  | _ :: _, [] => isFalse (fun h => by cases h)
  | t :: ts, u :: us =>
    match GTree.decEq t u, GTree.decEqList ts us with
    | isTrue h1, isTrue h2 => isTrue (by rw [h1, h2])
    | isFalse h1, _ => isFalse (fun h => by cases h; exact h1 rfl)
    | _, isFalse h2 => isFalse (fun h => by cases h; exact h2 rfl)
end

instance : DecidableEq GTree := GTree.decEq

mutual
/-- Modelled from the spec: util.get_wildcards is not among the given
sources.  Spec 4.4: enumerate all Wildcards in a tree in a fixed traversal
order, depth-first and left to right. -/
def get_wildcards : GTree → List Wildcard
  | .node _ cs => get_wildcards_list cs
  | .tok _ => []
  | .wc w => [w]

def get_wildcards_list : List GTree → List Wildcard
  | [] => []
  | t :: ts => get_wildcards t ++ get_wildcards_list ts
end

mutual
/-- Modelled from the spec: util.replace_child_in_tree is not among the
given sources.  Spec 4.4 step 4: substitute the wildcard node within the
tree with a leaf holding the candidate; every occurrence of that wildcard
is replaced, so the wildcard no longer remains in the result. -/
def replace_child_in_tree : GTree → Wildcard → String → GTree
  | .node a cs, w, c => .node a (replace_child_in_list cs w c)
  | .tok s, _, _ => .tok s
  | .wc v, w, c => if v = w then .tok c else .wc v

def replace_child_in_list : List GTree → Wildcard → String → List GTree
  | [], _, _ => []
  | t :: ts, w, c => replace_child_in_tree t w c :: replace_child_in_list ts w c
end

/-- A value of the constraints dict in generator.py: either a still-pending
set of wildcards the key must differ from, or the concrete candidate value
the key was fixed to during search. -/
inductive CVal where
  | cset : List Wildcard → CVal
  | cval : String → CVal
deriving DecidableEq, Repr

/-- The constraints dict: insertion-ordered association list from wildcards
to constraint values, modelling Python defaultdict(set). -/
abbrev CMap := List (Wildcard × CVal)

/-- Dict read; an absent key yields the defaultdict default, an empty set. -/
def cmapGet (cm : CMap) (w : Wildcard) : CVal :=
  match cm with
  | [] => .cset []
  | (k, v) :: rest => if k = w then v else cmapGet rest w

/-- Dict key-membership test. -/
def cmapMem (cm : CMap) (w : Wildcard) : Bool :=
  match cm with
  | [] => false
  | (k, _) :: rest => k == w || cmapMem rest w

/-- Dict write: replace the value of an existing key in place (insertion
order kept, as for a Python dict), or append a new entry. -/
def cmapSet (cm : CMap) (w : Wildcard) (v : CVal) : CMap :=
  match cm with
  | [] => [(w, v)]
  | (k, u) :: rest => if k = w then (k, v) :: rest else (k, u) :: cmapSet rest w v

/-- The keys of the constraints dict, in insertion order (dict iteration
order in generator.py lines 188-191). -/
def cmapKeys (cm : CMap) : List Wildcard :=
  (cm : List (Wildcard × CVal)).map Prod.fst

/-- One iteration of the constraint-construction loop of
generate_groundings (generator.py lines 182-191): a wildcard with a truthy
id gets a fresh empty entry and then collects every already-present key of
the same name with a different id; the always-empty assignment dict of
line 179 makes the line 186 guard dead and is omitted. -/
def buildStep (cm : CMap) (w : Wildcard) : CMap :=
  if w.id ≠ "" then
    let cm1 := cmapSet cm w (.cset [])
    cmapSet cm1 w (.cset ((cmapKeys cm1).filter (fun v => v.name = w.name ∧ v.id ≠ w.id)))
  else cm

/-- The constraint map built by generate_groundings (lines 181-191) from
the wildcard occurrences of the input tree, in traversal order. -/
def build_constraints (ws : List Wildcard) : CMap :=
  ws.foldl buildStep []

/-- The candidate loop of __populate_with_constraints (generator.py lines
204-222), one candidate at a time, parametric in the recursive call.
For each knowledge-base candidate: if the current wildcard's constraint
entry is still a set, the candidate is rejected when some constrained-
against wildcard was already fixed to the same value; if the entry is a
fixed value, the source hits assert False, modelled as the error result.
An accepted candidate is substituted into a copy of the tree, recorded in
a copy of the constraints, and the search recurses. -/
def populate_go (recur : GTree → CMap → Except Unit (List GTree)) (tree : GTree)
    (constraints : CMap) (wildcard : Wildcard) (item_constraints : CVal) :
    List String → Except Unit (List GTree)
  | [] => .ok []
  | candidate :: rest =>
    match item_constraints with
    | .cval _ => .error ()
    | .cset cons =>
      if cons.all (fun constraint => !(cmapGet constraints constraint == CVal.cval candidate)) then
        match recur (replace_child_in_tree tree wildcard candidate)
            (cmapSet constraints wildcard (.cval candidate)) with
        | .error e => .error e
        | .ok gs =>
          match populate_go recur tree constraints wildcard item_constraints rest with
          | .error e => .error e
          | .ok gs2 => .ok (gs ++ gs2)
      else populate_go recur tree constraints wildcard item_constraints rest

/-- Reference loop for the freedom property: the same candidate loop but
with no rejection at all, every candidate being substituted and recursed
into.  Stated from the spec's Freedom wording; the theorem for claim C7
shows the source loop coincides with it when the current wildcard's
constraint entry is the empty set. -/
def populate_all (recur : GTree → CMap → Except Unit (List GTree)) (tree : GTree)
    (constraints : CMap) (wildcard : Wildcard) :
    List String → Except Unit (List GTree)
  | [] => .ok []
  | candidate :: rest =>
    match recur (replace_child_in_tree tree wildcard candidate)
        (cmapSet constraints wildcard (.cval candidate)) with
    | .error e => .error e
    | .ok gs =>
      match populate_all recur tree constraints wildcard rest with
      | .error e => .error e
      | .ok gs2 => .ok (gs ++ gs2)

/-- __populate_with_constraints (generator.py lines 195-222).  The Python
recursion terminates because every accepted candidate removes a wildcard
from the tree; the fuel argument makes that bound explicit, and
generate_groundings below supplies fuel exceeding the wildcard count, which
is proved sufficient (populate_fuel_irrelevant). -/
def populate (kb : String → List String) : Nat → GTree → CMap → Except Unit (List GTree)
  | 0, _, _ => .ok []
  | fuel + 1, tree, constraints =>
    match get_wildcards tree with
    | [] => .ok [tree]
    | wildcard :: _ =>
      populate_go (populate kb fuel) tree constraints wildcard
        (cmapGet constraints wildcard) (kb wildcard.name)

/-- Instrumented variant of populate_go used for stating which value each
placeholder was assigned: identical control flow, but a complete grounding
is yielded together with the constraint map at that leaf (which by then
records every placeholder's fixed value). -/
def populateT_go (recur : GTree → CMap → Except Unit (List (GTree × CMap))) (tree : GTree)
    (constraints : CMap) (wildcard : Wildcard) (item_constraints : CVal) :
    List String → Except Unit (List (GTree × CMap))
  | [] => .ok []
  | candidate :: rest =>
    match item_constraints with
    | .cval _ => .error ()
    | .cset cons =>
      if cons.all (fun constraint => !(cmapGet constraints constraint == CVal.cval candidate)) then
        match recur (replace_child_in_tree tree wildcard candidate)
            (cmapSet constraints wildcard (.cval candidate)) with
        | .error e => .error e
        | .ok gs =>
          match populateT_go recur tree constraints wildcard item_constraints rest with
          | .error e => .error e
          | .ok gs2 => .ok (gs ++ gs2)
      else populateT_go recur tree constraints wildcard item_constraints rest

/-- Instrumented variant of populate: same search, but each yielded
grounding carries the final constraint map of its branch. -/
def populateT (kb : String → List String) : Nat → GTree → CMap → Except Unit (List (GTree × CMap))
  | 0, _, _ => .ok []
  | fuel + 1, tree, constraints =>
    match get_wildcards tree with
    | [] => .ok [(tree, constraints)]
    | wildcard :: _ =>
      populateT_go (populateT kb fuel) tree constraints wildcard
        (cmapGet constraints wildcard) (kb wildcard.name)

/-- Generator.generate_groundings (generator.py lines 177-193): build the
constraint map from the tree's wildcards, then run the constrained search.
The knowledge base (self.knowledge_base.by_name) is the external
collaborator, passed as a function from names to candidate lists. -/
def generate_groundings (kb : String → List String) (tree : GTree) :
    Except Unit (List GTree) :=
  populate kb ((get_wildcards tree).length + 1) tree (build_constraints (get_wildcards tree))

/-- Instrumented generate_groundings, pairing each grounding with the final
constraint map of its search branch. -/
def generate_groundingsT (kb : String → List String) (tree : GTree) :
    Except Unit (List (GTree × CMap)) :=
  populateT kb ((get_wildcards tree).length + 1) tree (build_constraints (get_wildcards tree))

/-- Failures of Generator.ground: the assertion failure propagated from the
search, or the StopIteration that next() raises when the search is
exhausted without yielding, which the spec names NoGroundingFound. -/
inductive GroundError where
  | assertionError : GroundError
  | noGroundingFound : GroundError
deriving DecidableEq, Repr

/-- Generator.ground (generator.py lines 174-175): next() over the
groundings generator, so the first grounding if one exists, and otherwise
the no-grounding failure. -/
def ground (kb : String → List String) (tree : GTree) : Except GroundError GTree :=
  match generate_groundings kb tree with
  | .error _ => .error .assertionError
  | .ok [] => .error .noGroundingFound
  | .ok (g :: _) => .ok g

/-! ### The rule table and Generator.load_rules (generator.py lines 86-114) -/

/-- The rule table self.rules: insertion-ordered dict from nonterminal
symbols to the ordered list of alternative right-hand sides. -/
abbrev RuleDict := List (String × List GTree)

/-- Dict read on the rule table. -/
def ruleLookup (r : RuleDict) (s : String) : Option (List GTree) :=
  match r with
  | [] => none
  | (k, v) :: rest => if k = s then some v else ruleLookup rest s

/-- The entry of the rule table for a symbol, an empty list when absent. -/
def ruleLookupD (r : RuleDict) (s : String) : List GTree :=
  (ruleLookup r s).getD []

/-- The table update of load_rules lines 108-113: a new symbol gets the
freshly parsed alternative list as its entry, an existing symbol has the
list appended to its entry (list.extend, no deduplication). -/
def ruleExtend (r : RuleDict) (lhs : String) (rhs : List GTree) : RuleDict :=
  match r with
  | [] => [(lhs, rhs)]
  | (k, v) :: rest => if k = lhs then (k, v ++ rhs) :: rest else (k, v) :: ruleExtend rest lhs rhs

/-- Generator.load_rules (lines 94-114) over already-parsed lines.  Line
stripping, the non-printable scrub, and parse_production_rule (the external
lark parser plus shorthand expansion) are collaborators outside this core;
a line is therefore modelled by their output: none for a line whose parse
has an empty left-hand side (a comment, skipped), or the left-hand symbol
together with the expanded alternative list.  Returns the updated table and
the count of appended parse events. -/
def load_rules : RuleDict → List (Option String × List GTree) → RuleDict × Nat
  | rules, [] => (rules, 0)
  | rules, (lhs?, rhs_productions) :: rest =>
    match lhs? with
    | none => load_rules rules rest
    | some lhs =>
      let p := load_rules (ruleExtend rules lhs rhs_productions) rest
      (p.1, p.2 + 1)

/-! ### Semantics loading: Generator.__parse_rule (generator.py lines 116-156) -/

/-- Outcome of the line-splitting prelude of __parse_rule (lines 117-121). -/
inductive SplitResult where
  | comment : SplitResult
  | pair : List Char → List Char → SplitResult
  | unpackError : SplitResult
deriving DecidableEq, Repr

/-- Python str.split with a single-character separator and no maxsplit:
the maximal run of segments between separator occurrences, in order.
Always returns at least one segment. -/
def pySplit (sep : Char) : List Char → List (List Char)
  | [] => [[]]
  | c :: rest =>
    if c = sep then [] :: pySplit sep rest
    else
      match pySplit sep rest with
      | seg :: segs => (c :: seg) :: segs
      | [] => [[c]]

/-- Lines 117-121 of __parse_rule: a line without an equals sign is a
comment; otherwise the line is split on every equals sign and the result is
unpacked into exactly two variables, so a line with one equals sign yields
the production text and the semantics text, while two or more equals signs
make the unpacking fail (Python ValueError). -/
def split_rule_line (line : List Char) : SplitResult :=
  if '=' ∈ line then
    match pySplit '=' line with
    | [p, s] => .pair p s
    | _ => .unpackError
  else .comment

/-- Modelled from the spec: util.get_wildcards_forest is not among the
given sources.  Spec 4.3: the set of wildcards occurring anywhere in the
given trees; membership in this list is what the source consumes. -/
def get_wildcards_forest (ts : List GTree) : List Wildcard :=
  get_wildcards_list ts

/-- isinstance(sem, Tree) in line 148: the lambda parse is a lark Tree
exactly when it is an interior node. -/
def isLarkTree : GTree → Bool
  | .node _ _ => true
  | _ => false

/-- itertools.zip_longest with a fill value (line 145): positional pairing
padded to the longer list, the fill standing in for the exhausted side. -/
def zip_longest_fill {α : Type} (fill : α) : List α → List α → List (α × α)
  | [], ys => ys.map (fun y => (fill, y))
  | x :: xs, [] => (x, fill) :: zip_longest_fill fill xs []
  | x :: xs, y :: ys => (x, y) :: zip_longest_fill fill xs ys

/-- The pairing of line 145: zip_longest over the expanded production and
semantics lists, the fill value being the first expanded semantics element;
none models the IndexError were the expanded semantics list empty. -/
def rule_pairs (expanded_prod_heads expanded_sem_heads : List GTree) :
    Option (List (GTree × GTree)) :=
  match expanded_sem_heads with
  | [] => none
  | e0 :: _ => some (zip_longest_fill e0 expanded_prod_heads expanded_sem_heads)

/-- The semantics table self.semantics: insertion-ordered dict from
production trees (structural keys) to semantics trees. -/
abbrev SemDict := List (GTree × GTree)

/-- Dict read on the semantics table. -/
def semGet (d : SemDict) (k : GTree) : Option GTree :=
  match d with
  | [] => none
  | (p, s) :: rest => if p = k then some s else semGet rest k

/-- Dict write on the semantics table: a structurally equal key is
overwritten in place, a new key appended. -/
def semSet (d : SemDict) (k v : GTree) : SemDict :=
  match d with
  | [] => [(k, v)]
  | (p, s) :: rest => if p = k then (p, v) :: rest else (p, s) :: semSet rest k v

/-- The pair loop of __parse_rule (lines 145-156): for each paired
(production, semantics), collect the wildcards of both (a non-tree
semantics value having none), raise the unbound-wildcard RuntimeError when
the semantics mention a wildcard absent from the production, and otherwise
register the pair and count it.  Returns the table as mutated so far
(mutations before a raise persist) and the count or the error. -/
def process_pairs : List (GTree × GTree) → SemDict → SemDict × Except Unit Nat
  | [], rule_dict => (rule_dict, .ok 0)
  | (prod, sem) :: rest, rule_dict =>
    let prod_wildcards := get_wildcards_forest [prod]
    let sem_wildcards := if isLarkTree sem then get_wildcards_forest [sem] else []
    if sem_wildcards.any (fun x => !(decide (x ∈ prod_wildcards))) then
      (rule_dict, .error ())
    else
      let p := process_pairs rest (semSet rule_dict prod sem)
      (p.1, p.2.map (fun i => i + 1))

/-- A pair violates the wildcard-scope rule: its semantics side (when
tree-shaped) mentions a wildcard absent from its production side. -/
def violatesPair (p : GTree × GTree) : Prop :=
  ∃ w, w ∈ (if isLarkTree p.2 then get_wildcards_forest [p.2] else []) ∧
    w ∉ get_wildcards_forest [p.1]

/-- The wildcard-scope invariant for one registered pair: every wildcard of
the semantics side (none when it is not tree-shaped) occurs in the
production side. -/
def semPairOk (prod sem : GTree) : Prop :=
  ∀ w ∈ (if isLarkTree sem then get_wildcards_forest [sem] else []),
    w ∈ get_wildcards_forest [prod]

/-! ### A store-passing rendition of the search, for the copy discipline

__populate_with_constraints mutates trees and constraint dicts in place
(replace_child_in_tree and dict assignment), but only ever on the deep
copies made on lines 217-218.  To state that the caller's objects survive
an enumeration unchanged, the search is replayed over an explicit store of
(tree, constraints) states addressed by index: a deep copy allocates a
fresh address, the substitution overwrites only that fresh address, and the
recursion descends into the copy.  populateSt_frame below proves every
pre-existing address unchanged, and populateSt_spec proves the yielded
groundings agree with populate. -/

abbrev Store := List (GTree × CMap)

/-- The candidate loop over the store: an accepted candidate deep-copies
the current state to a fresh address (List.concat), mutates the copy in
place (List.set), and recurses at the copy's address. -/
def populateSt_go (recur : Store → Nat → Store × Except Unit (List GTree)) (sigma : Store)
    (tree : GTree) (constraints : CMap) (wildcard : Wildcard) (item_constraints : CVal) :
    List String → Store × Except Unit (List GTree)
  | [] => (sigma, .ok [])
  | candidate :: rest =>
    match item_constraints with
    | .cval _ => (sigma, .error ())
    | .cset cons =>
      if cons.all (fun constraint => !(cmapGet constraints constraint == CVal.cval candidate)) then
        let res := recur ((sigma ++ [(tree, constraints)]).set sigma.length
          (replace_child_in_tree tree wildcard candidate,
           cmapSet constraints wildcard (.cval candidate))) sigma.length
        match res.2 with
        | .error e => (res.1, .error e)
        | .ok gs =>
          let res2 := populateSt_go recur res.1 tree constraints wildcard item_constraints rest
          match res2.2 with
          | .error e => (res2.1, .error e)
          | .ok gs2 => (res2.1, .ok (gs ++ gs2))
      else populateSt_go recur sigma tree constraints wildcard item_constraints rest

/-- Store-passing __populate_with_constraints: the current branch state is
read from its address; the base case yields the tree found there. -/
def populateSt (kb : String → List String) : Nat → Store → Nat → Store × Except Unit (List GTree)
  | 0, sigma, _ => (sigma, .ok [])
  | fuel + 1, sigma, addr =>
    let st := sigma.getD addr default
    match get_wildcards st.1 with
    | [] => (sigma, .ok [st.1])
    | wildcard :: _ =>
      populateSt_go (populateSt kb fuel) sigma st.1 st.2 wildcard
        (cmapGet st.2 wildcard) (kb wildcard.name)

/-! ### Concrete scenario data (spec section 8, scenarios 3 and 4) -/

/-- The placeholder person with co-reference id 1. -/
def personW1 : Wildcard := ⟨"person", "1"⟩

/-- The placeholder person with co-reference id 2. -/
def personW2 : Wildcard := ⟨"person", "2"⟩

/-- A tree holding the two co-indexed person placeholders. -/
def personTree : GTree := .node "expr" [.wc personW1, .wc personW2]

/-- Knowledge base with byName person = [alice, bob]. -/
def kbTwoPeople : String → List String :=
  fun n => if n = "person" then ["alice", "bob"] else []

/-- Knowledge base with byName person = [alice] only. -/
def kbOnePerson : String → List String :=
  fun n => if n = "person" then ["alice"] else []

/-! ### Verification predicates -/

/-- The first occurrence of a precedes the first occurrence of b in a
wildcard occurrence list: the list splits at a's first occurrence with b
occurring only later. -/
def occBefore (a b : Wildcard) (ws : List Wildcard) : Prop :=
  ∃ l1 l2, ws = l1 ++ a :: l2 ∧ a ∉ l1 ∧ b ∉ l1 ∧ b ∈ l2

/-- Both wildcards have been fixed, to different candidate values. -/
def distinctFixed (a b : Wildcard) (cm : CMap) : Prop :=
  ∃ va vb, cmapGet cm a = .cval va ∧ cmapGet cm b = .cval vb ∧ va ≠ vb

/-- Search invariant for the distinctness argument about two co-indexed
wildcards a and b: either neither is resolved yet, a still occurring first
and sitting in b's pending constraint set; or a alone is resolved, with b
still pending and constrained against a; or both are resolved to distinct
values. -/
def searchInv (a b : Wildcard) (tree : GTree) (cm : CMap) : Prop :=
  (occBefore a b (get_wildcards tree) ∧ ∃ L, cmapGet cm b = .cset L ∧ a ∈ L)
  ∨ (∃ va L, cmapGet cm a = .cval va ∧ b ∈ get_wildcards tree ∧
      cmapGet cm b = .cset L ∧ a ∈ L)
  ∨ distinctFixed a b cm

/-- Every wildcard still occurring in the tree has a pending set entry (its
constraint value was never fixed); this is what makes the assert False
branch of the search unreachable. -/
def allPending (tree : GTree) (cm : CMap) : Prop :=
  ∀ v ∈ get_wildcards tree, ∃ l, cmapGet cm v = .cset l

/-! ### Basic facts about the constraints dict -/

theorem cmapGet_nil (w : Wildcard) : cmapGet [] w = .cset [] := rfl

theorem cmapGet_cons (k : Wildcard) (v : CVal) (rest : CMap) (w : Wildcard) :
    cmapGet ((k, v) :: rest) w = if k = w then v else cmapGet rest w := rfl

theorem cmapSet_nil (w : Wildcard) (v : CVal) : cmapSet [] w v = [(w, v)] := rfl

theorem cmapSet_cons (k : Wildcard) (u : CVal) (rest : CMap) (w : Wildcard) (v : CVal) :
    cmapSet ((k, u) :: rest) w v =
      if k = w then (k, v) :: rest else (k, u) :: cmapSet rest w v := rfl

theorem cmapMem_cons (k : Wildcard) (u : CVal) (rest : CMap) (w : Wildcard) :
    cmapMem ((k, u) :: rest) w = (k == w || cmapMem rest w) := rfl

theorem cmapGet_set_eq (cm : CMap) (w : Wildcard) (v : CVal) :
    cmapGet (cmapSet cm w v) w = v := by
  induction cm with
  | nil => simp [cmapSet_nil, cmapGet_cons]
  | cons p rest ih =>
    obtain ⟨k, u⟩ := p
    by_cases h : k = w
    · rw [cmapSet_cons, if_pos h, cmapGet_cons, if_pos h]
    · rw [cmapSet_cons, if_neg h, cmapGet_cons, if_neg h, ih]

theorem cmapGet_set_ne (cm : CMap) (w k : Wildcard) (v : CVal) (h : k ≠ w) :
    cmapGet (cmapSet cm w v) k = cmapGet cm k := by
  induction cm with
  | nil =>
    rw [cmapSet_nil, cmapGet_cons, if_neg (fun hh => h hh.symm), cmapGet_nil]
  | cons p rest ih =>
    obtain ⟨k', u⟩ := p
    by_cases h2 : k' = w
    · rw [cmapSet_cons, if_pos h2, cmapGet_cons, cmapGet_cons,
        if_neg (fun hh => h (hh.symm.trans h2)),
        if_neg (fun hh => h (hh.symm.trans h2))]
    · rw [cmapSet_cons, if_neg h2, cmapGet_cons, cmapGet_cons, ih]

theorem cmapMem_iff_keys (cm : CMap) (w : Wildcard) :
    cmapMem cm w = true ↔ w ∈ cmapKeys cm := by
  induction cm with
  | nil => simp [cmapMem, cmapKeys]
  | cons p rest ih =>
    obtain ⟨k, u⟩ := p
    rw [cmapMem_cons]
    simp only [cmapKeys, List.map_cons, List.mem_cons, Bool.or_eq_true, beq_iff_eq]
    rw [ih]
    simp only [cmapKeys]
    exact or_congr_left (by constructor <;> exact fun hh => hh.symm)

theorem cmapGet_of_not_mem (cm : CMap) (w : Wildcard) (h : cmapMem cm w = false) :
    cmapGet cm w = .cset [] := by
  induction cm with
  | nil => rfl
  | cons p rest ih =>
    obtain ⟨k, u⟩ := p
    rw [cmapMem_cons] at h
    simp only [Bool.or_eq_false_iff, beq_eq_false_iff_ne, ne_eq] at h
    rw [cmapGet_cons, if_neg h.1, ih h.2]

theorem cmapMem_set (cm : CMap) (w k : Wildcard) (v : CVal) :
    cmapMem (cmapSet cm w v) k = (w == k || cmapMem cm k) := by
  induction cm with
  | nil => rfl
  | cons p rest ih =>
    obtain ⟨k', u⟩ := p
    by_cases h : k' = w
    · subst h
      rw [cmapSet_cons, if_pos rfl, cmapMem_cons, cmapMem_cons]
      cases hkk : (k' == k) <;> simp [hkk]
    · rw [cmapSet_cons, if_neg h, cmapMem_cons, cmapMem_cons, ih]
      cases (k' == k) <;> cases (w == k) <;> simp

theorem cmapMem_set_iff (cm : CMap) (w k : Wildcard) (v : CVal) :
    cmapMem (cmapSet cm w v) k = true ↔ (w = k ∨ cmapMem cm k = true) := by
  rw [cmapMem_set]
  simp [Bool.or_eq_true, beq_iff_eq]

/-! ### Wildcards after a substitution -/

mutual
theorem get_wildcards_replace (t : GTree) (w : Wildcard) (c : String) :
    get_wildcards (replace_child_in_tree t w c) =
      (get_wildcards t).filter (fun x => !(x == w)) := by
  match t with
  | .node a cs =>
    simp only [replace_child_in_tree, get_wildcards]
    exact get_wildcards_replace_list cs w c
  | .tok s => simp [replace_child_in_tree, get_wildcards]
  | .wc v =>
    by_cases h : v = w
    · have hb : (v == w) = true := beq_iff_eq.mpr h
      simp [replace_child_in_tree, get_wildcards, h, List.filter, hb]
    · have hb : (v == w) = false := beq_eq_false_iff_ne.mpr h
      simp [replace_child_in_tree, get_wildcards, h, List.filter, hb]

theorem get_wildcards_replace_list (ts : List GTree) (w : Wildcard) (c : String) :
    get_wildcards_list (replace_child_in_list ts w c) =
      (get_wildcards_list ts).filter (fun x => !(x == w)) := by
  match ts with
  | [] => simp [replace_child_in_list, get_wildcards_list]
  | t :: rest =>
    simp only [replace_child_in_list, get_wildcards_list, List.filter_append]
    rw [get_wildcards_replace t w c, get_wildcards_replace_list rest w c]
end


/-! ### Facts about constraint construction -/

theorem buildStep_skip (cm : CMap) (w : Wildcard) (h : w.id = "") :
    buildStep cm w = cm := by
  simp [buildStep, h]

theorem buildStep_act (cm : CMap) (w : Wildcard) (h : w.id ≠ "") :
    buildStep cm w =
      cmapSet (cmapSet cm w (.cset [])) w
        (.cset ((cmapKeys (cmapSet cm w (.cset []))).filter
          (fun v => v.name = w.name ∧ v.id ≠ w.id))) := by
  simp [buildStep, h]

theorem cmapMem_buildStep (cm : CMap) (w k : Wildcard) (h : cmapMem cm k = true) :
    cmapMem (buildStep cm w) k = true := by
  by_cases hid : w.id = ""
  · rw [buildStep_skip cm w hid]; exact h
  · rw [buildStep_act cm w hid]
    exact (cmapMem_set_iff _ _ _ _).mpr (Or.inr ((cmapMem_set_iff _ _ _ _).mpr (Or.inr h)))

theorem cmapMem_foldl_build (l : List Wildcard) (cm : CMap) (k : Wildcard)
    (h : cmapMem cm k = true) : cmapMem (l.foldl buildStep cm) k = true := by
  induction l generalizing cm with
  | nil => exact h
  | cons w rest ih => exact ih (buildStep cm w) (cmapMem_buildStep cm w k h)

theorem cmapMem_buildStep_self (cm : CMap) (w : Wildcard) (h : w.id ≠ "") :
    cmapMem (buildStep cm w) w = true := by
  rw [buildStep_act cm w h]
  exact (cmapMem_set_iff _ _ _ _).mpr (Or.inl rfl)

theorem buildStep_get_ne (cm : CMap) (w k : Wildcard) (h : k ≠ w) :
    cmapGet (buildStep cm w) k = cmapGet cm k := by
  by_cases hid : w.id = ""
  · rw [buildStep_skip cm w hid]
  · rw [buildStep_act cm w hid, cmapGet_set_ne _ _ _ _ h, cmapGet_set_ne _ _ _ _ h]

theorem buildStep_keys_nonempty_id (cm : CMap) (w : Wildcard)
    (h : ∀ v, cmapMem cm v = true → v.id ≠ "") :
    ∀ v, cmapMem (buildStep cm w) v = true → v.id ≠ "" := by
  intro v hv
  by_cases hid : w.id = ""
  · rw [buildStep_skip cm w hid] at hv; exact h v hv
  · rw [buildStep_act cm w hid] at hv
    rcases (cmapMem_set_iff _ _ _ _).mp hv with hh | hh
    · rw [← hh]; exact hid
    · rcases (cmapMem_set_iff _ _ _ _).mp hh with hh2 | hh2
      · rw [← hh2]; exact hid
      · exact h v hh2

/-- Every value stored by constraint construction is a pending set. -/
theorem buildStep_all_cset (cm : CMap) (w : Wildcard)
    (h : ∀ v, ∃ l, cmapGet cm v = .cset l) :
    ∀ v, ∃ l, cmapGet (buildStep cm w) v = .cset l := by
  intro v
  by_cases hid : w.id = ""
  · rw [buildStep_skip cm w hid]; exact h v
  · rw [buildStep_act cm w hid]
    by_cases hv : v = w
    · subst hv
      exact ⟨_, cmapGet_set_eq _ _ _⟩
    · rw [cmapGet_set_ne _ _ _ _ hv, cmapGet_set_ne _ _ _ _ hv]
      exact h v

theorem build_constraints_all_cset (ws : List Wildcard) :
    ∀ v, ∃ l, cmapGet (build_constraints ws) v = .cset l := by
  have main : ∀ (l : List Wildcard) (cm : CMap), (∀ v, ∃ l2, cmapGet cm v = .cset l2) →
      ∀ v, ∃ l2, cmapGet (l.foldl buildStep cm) v = .cset l2 := by
    intro l
    induction l with
    | nil => exact fun cm h => h
    | cons w rest ih =>
      intro cm h
      exact ih (buildStep cm w) (buildStep_all_cset cm w h)
  exact main ws [] (fun v => ⟨[], rfl⟩)

/-- Keys of the built constraint map all carry a non-empty id. -/
theorem build_constraints_keys_nonempty_id (ws : List Wildcard) :
    ∀ v, cmapMem (build_constraints ws) v = true → v.id ≠ "" := by
  have main : ∀ (l : List Wildcard) (cm : CMap), (∀ v, cmapMem cm v = true → v.id ≠ "") →
      ∀ v, cmapMem (l.foldl buildStep cm) v = true → v.id ≠ "" := by
    intro l
    induction l with
    | nil => exact fun cm h => h
    | cons w rest ih =>
      intro cm h
      exact ih (buildStep cm w) (buildStep_keys_nonempty_id cm w h)
  exact main ws [] (fun v hv => by cases hv)

/-- Members of any pending constraint set of the built map have non-empty
ids: free wildcards are never recorded as constraints. -/
theorem build_constraints_lists_nonempty_id (ws : List Wildcard) :
    ∀ u L x, cmapGet (build_constraints ws) u = .cset L → x ∈ L → x.id ≠ "" := by
  have step : ∀ cm w, (∀ v, cmapMem cm v = true → v.id ≠ "") →
      (∀ u L x, cmapGet cm u = .cset L → x ∈ L → x.id ≠ "") →
      (∀ u L x, cmapGet (buildStep cm w) u = .cset L → x ∈ L → x.id ≠ "") := by
    intro cm w hkeys hlists u L x hget hx
    by_cases hid : w.id = ""
    · rw [buildStep_skip cm w hid] at hget; exact hlists u L x hget hx
    · rw [buildStep_act cm w hid] at hget
      by_cases hu : u = w
      · subst hu
        rw [cmapGet_set_eq] at hget
        cases hget
        have hx2 := List.mem_filter.mp hx
        have hx3 := (cmapMem_iff_keys _ _).mpr hx2.1
        rcases (cmapMem_set_iff _ _ _ _).mp hx3 with hh | hh
        · rw [← hh]; exact hid
        · exact hkeys x hh
      · rw [cmapGet_set_ne _ _ _ _ hu, cmapGet_set_ne _ _ _ _ hu] at hget
        exact hlists u L x hget hx
  have main : ∀ (l : List Wildcard) (cm : CMap), (∀ v, cmapMem cm v = true → v.id ≠ "") →
      (∀ u L x, cmapGet cm u = .cset L → x ∈ L → x.id ≠ "") →
      (∀ u L x, cmapGet (l.foldl buildStep cm) u = .cset L → x ∈ L → x.id ≠ "") := by
    intro l
    induction l with
    | nil => exact fun cm hk hl => hl
    | cons w rest ih =>
      intro cm hk hl
      exact ih (buildStep cm w) (buildStep_keys_nonempty_id cm w hk) (step cm w hk hl)
  refine main ws [] (fun v hv => by cases hv) ?_
  intro u L x hget hx
  cases hget
  cases hx

/-- An id-empty wildcard never becomes a key of the built constraint map. -/
theorem build_constraints_not_mem_empty_id (ws : List Wildcard) (v : Wildcard)
    (h : v.id = "") : cmapMem (build_constraints ws) v = false := by
  cases hv : cmapMem (build_constraints ws) v with
  | false => rfl
  | true => exact absurd h (build_constraints_keys_nonempty_id ws v hv)

/-- After processing the later wildcard b, the earlier same-name
different-id key a is in b's pending constraint set, and stays there. -/
theorem build_tail (a b : Wildcard) (hn : a.name = b.name) (hi : a.id ≠ b.id)
    (hb : b.id ≠ "") :
    ∀ (l : List Wildcard) (cm : CMap), cmapMem cm a = true →
      (b ∈ l ∨ ∃ L, cmapGet cm b = .cset L ∧ a ∈ L) →
      ∃ L, cmapGet (l.foldl buildStep cm) b = .cset L ∧ a ∈ L := by
  intro l
  induction l with
  | nil =>
    intro cm hma hdisj
    rcases hdisj with hh | hh
    · cases hh
    · exact hh
  | cons w rest ih =>
    intro cm hma hdisj
    refine ih (buildStep cm w) (cmapMem_buildStep cm w a hma) ?_
    by_cases hw : w = b
    · subst hw
      right
      rw [buildStep_act cm w hb]
      refine ⟨_, cmapGet_set_eq _ _ _, ?_⟩
      refine List.mem_filter.mpr ⟨?_, ?_⟩
      · exact (cmapMem_iff_keys _ _).mp ((cmapMem_set_iff _ _ _ _).mpr (Or.inr hma))
      · simp only [decide_eq_true_eq]
        exact ⟨hn, hi⟩
    · rcases hdisj with hh | hh
      · rcases List.mem_cons.mp hh with hh2 | hh2
        · exact absurd hh2.symm hw
        · exact Or.inl hh2
      · right
        rcases hh with ⟨L, hgetb, haL⟩
        refine ⟨L, ?_, haL⟩
        rw [buildStep_get_ne cm w b (fun hh3 => hw hh3.symm)]
        exact hgetb

/-- If a occurs before b among the tree's wildcards (same name, distinct
non-empty ids), the built constraint map has a in b's pending set. -/
theorem build_constraints_edge (ws : List Wildcard) (a b : Wildcard)
    (hn : a.name = b.name) (hi : a.id ≠ b.id) (ha : a.id ≠ "") (hb : b.id ≠ "")
    (l1 l2 : List Wildcard) (hws : ws = l1 ++ a :: l2) (hbl2 : b ∈ l2) :
    ∃ L, cmapGet (build_constraints ws) b = .cset L ∧ a ∈ L := by
  subst hws
  unfold build_constraints
  rw [List.foldl_append]
  simp only [List.foldl_cons]
  refine build_tail a b hn hi hb l2 (buildStep (l1.foldl buildStep []) a)
    (cmapMem_buildStep_self _ a ha) (Or.inl hbl2)

/-- Two distinct members of a list: one of them occurs strictly first. -/
theorem occBefore_total (ws : List Wildcard) (a b : Wildcard) (ha : a ∈ ws)
    (hb : b ∈ ws) (hne : a ≠ b) : occBefore a b ws ∨ occBefore b a ws := by
  induction ws with
  | nil => cases ha
  | cons w rest ih =>
    by_cases hwa : w = a
    · subst hwa
      left
      refine ⟨[], rest, rfl, by simp, by simp, ?_⟩
      rcases List.mem_cons.mp hb with hh | hh
      · exact absurd hh.symm hne
      · exact hh
    · by_cases hwb : w = b
      · subst hwb
        right
        refine ⟨[], rest, rfl, by simp, by simp, ?_⟩
        rcases List.mem_cons.mp ha with hh | hh
        · exact absurd hh (Ne.symm hwa)
        · exact hh
      · have hwa2 : a ≠ w := Ne.symm hwa
        have hwb2 : b ≠ w := Ne.symm hwb
        have ha2 : a ∈ rest := by
          rcases List.mem_cons.mp ha with hh | hh
          · exact absurd hh hwa2
          · exact hh
        have hb2 : b ∈ rest := by
          rcases List.mem_cons.mp hb with hh | hh
          · exact absurd hh hwb2
          · exact hh
        rcases ih ha2 hb2 with hh | hh
        · left
          obtain ⟨p1, p2, hsplit, hap, hbp, hbp2⟩ := hh
          exact ⟨w :: p1, p2, by rw [hsplit]; rfl,
            by simp [hap, hwa2], by simp [hbp, hwb2], hbp2⟩
        · right
          obtain ⟨p1, p2, hsplit, hap, hbp, hbp2⟩ := hh
          exact ⟨w :: p1, p2, by rw [hsplit]; rfl,
            by simp [hap, hwb2], by simp [hbp, hwa2], hbp2⟩


/-! ### The search: basic shape lemmas -/

theorem except_map_error {α β ε : Type} (f : α → β) (e : ε) :
    Except.map f (.error e : Except ε α) = .error e := rfl

theorem except_map_ok {α β ε : Type} (f : α → β) (a : α) :
    Except.map f (.ok a : Except ε α) = .ok (f a) := rfl

/-- Membership inversion for the instrumented candidate loop: every yielded
pair comes from some accepted candidate's recursive call. -/
theorem populateT_go_ok_mem
    (recur : GTree → CMap → Except Unit (List (GTree × CMap)))
    (tree : GTree) (cm : CMap) (w : Wildcard) (l : List Wildcard) :
    ∀ (cs : List String) (gs : List (GTree × CMap)),
      populateT_go recur tree cm w (.cset l) cs = .ok gs →
      ∀ p ∈ gs, ∃ c ∈ cs,
        l.all (fun o => !(cmapGet cm o == CVal.cval c)) = true ∧
        ∃ gs1, recur (replace_child_in_tree tree w c)
            (cmapSet cm w (.cval c)) = .ok gs1 ∧ p ∈ gs1 := by
  intro cs
  induction cs with
  | nil =>
    intro gs h p hp
    simp only [populateT_go] at h
    cases h
    cases hp
  | cons c rest ih =>
    intro gs h p hp
    simp only [populateT_go] at h
    by_cases hacc : l.all (fun o => !(cmapGet cm o == CVal.cval c)) = true
    · rw [if_pos hacc] at h
      cases hrec : recur (replace_child_in_tree tree w c) (cmapSet cm w (.cval c)) with
      | error e => rw [hrec] at h; cases h
      | ok gs1 =>
        rw [hrec] at h
        cases hgo : populateT_go recur tree cm w (.cset l) rest with
        | error e => rw [hgo] at h; cases h
        | ok gs2 =>
          rw [hgo] at h
          cases h
          rcases List.mem_append.mp hp with hp1 | hp2
          · exact ⟨c, List.mem_cons_self c rest, hacc, gs1, hrec, hp1⟩
          · obtain ⟨c2, hc2, hacc2, gs3, hrec3, hp3⟩ := ih gs2 hgo p hp2
            exact ⟨c2, List.mem_cons_of_mem c hc2, hacc2, gs3, hrec3, hp3⟩
    · rw [if_neg hacc] at h
      obtain ⟨c2, hc2, hacc2, gs3, hrec3, hp3⟩ := ih gs h p hp
      exact ⟨c2, List.mem_cons_of_mem c hc2, hacc2, gs3, hrec3, hp3⟩

/-- populate is the first projection of the instrumented search. -/
theorem populate_eq_populateT (kb : String → List String) :
    ∀ (fuel : Nat) (tree : GTree) (cm : CMap),
      populate kb fuel tree cm =
        (populateT kb fuel tree cm).map (List.map Prod.fst) := by
  intro fuel
  induction fuel with
  | zero => intro tree cm; rfl
  | succ fuel ih =>
    intro tree cm
    have go : ∀ (cs : List String) (item : CVal) (w : Wildcard),
        populate_go (populate kb fuel) tree cm w item cs =
          (populateT_go (populateT kb fuel) tree cm w item cs).map (List.map Prod.fst) := by
      intro cs
      induction cs with
      | nil => intro item w; rfl
      | cons c rest ihc =>
        intro item w
        cases item with
        | cval s => rfl
        | cset l =>
          simp only [populate_go, populateT_go]
          by_cases hacc : l.all (fun o => !(cmapGet cm o == CVal.cval c)) = true
          · rw [if_pos hacc, if_pos hacc, ih]
            cases hrec : populateT kb fuel
                (replace_child_in_tree tree w c) (cmapSet cm w (.cval c)) with
            | error e => rfl
            | ok gs1 =>
              rw [except_map_ok, ihc]
              cases hgo : populateT_go (populateT kb fuel) tree cm w (.cset l) rest with
              | error e => rfl
              | ok gs2 =>
                rw [except_map_ok, except_map_ok]
                simp [List.map_append]
          · rw [if_neg hacc, if_neg hacc, ihc]
    simp only [populate, populateT]
    cases hws : get_wildcards tree with
    | nil => rfl
    | cons w rest => exact go (kb w.name) (cmapGet cm w) w


/-! ### The search never reaches the assert False branch -/

theorem bnot_beq_true_iff (x w : Wildcard) : (!(x == w)) = true ↔ x ≠ w := by
  simp [Bool.not_eq_true', beq_eq_false_iff_ne]

/-- A substitution step preserves pendingness of the surviving wildcards. -/
theorem allPending_step (tree : GTree) (cm : CMap) (w : Wildcard) (c : String)
    (h : allPending tree cm) :
    allPending (replace_child_in_tree tree w c) (cmapSet cm w (.cval c)) := by
  intro v hv
  rw [get_wildcards_replace] at hv
  have hv2 := List.mem_filter.mp hv
  have hvw : v ≠ w := (bnot_beq_true_iff v w).mp hv2.2
  rw [cmapGet_set_ne _ _ _ _ hvw]
  exact h v hv2.1

theorem populateT_go_ok (kb : String → List String) (fuel : Nat) (tree : GTree)
    (cm : CMap) (w : Wildcard) (l : List Wildcard) (hpend : allPending tree cm)
    (IH : ∀ t2 cm2, allPending t2 cm2 → ∃ gs, populateT kb fuel t2 cm2 = .ok gs) :
    ∀ cs : List String,
      ∃ gs, populateT_go (populateT kb fuel) tree cm w (.cset l) cs = .ok gs := by
  intro cs
  induction cs with
  | nil => exact ⟨[], rfl⟩
  | cons c rest ih =>
    simp only [populateT_go]
    by_cases hacc : l.all (fun o => !(cmapGet cm o == CVal.cval c)) = true
    · rw [if_pos hacc]
      obtain ⟨gs1, h1⟩ := IH (replace_child_in_tree tree w c)
        (cmapSet cm w (.cval c)) (allPending_step tree cm w c hpend)
      rw [h1]
      obtain ⟨gs2, h2⟩ := ih
      rw [h2]
      exact ⟨gs1 ++ gs2, rfl⟩
    · rw [if_neg hacc]
      exact ih

/-- As long as every wildcard of the tree is still pending in the
constraint map, the instrumented search returns without the assert error. -/
theorem populateT_ok (kb : String → List String) :
    ∀ (fuel : Nat) (tree : GTree) (cm : CMap), allPending tree cm →
      ∃ gs, populateT kb fuel tree cm = .ok gs := by
  intro fuel
  induction fuel with
  | zero => exact fun tree cm _ => ⟨[], rfl⟩
  | succ fuel ih =>
    intro tree cm hpend
    cases hws : get_wildcards tree with
    | nil =>
      refine ⟨[(tree, cm)], ?_⟩
      simp only [populateT, hws]
    | cons w rest =>
      obtain ⟨l, hitem⟩ := hpend w (by rw [hws]; exact List.mem_cons_self w rest)
      obtain ⟨gs, hgs⟩ := populateT_go_ok kb fuel tree cm w l hpend ih (kb w.name)
      refine ⟨gs, ?_⟩
      simp only [populateT, hws, hitem]
      exact hgs

/-- The initial state of the search is all-pending. -/
theorem allPending_initial (tree : GTree) :
    allPending tree (build_constraints (get_wildcards tree)) :=
  fun v _ => build_constraints_all_cset (get_wildcards tree) v

theorem generate_groundingsT_ok (kb : String → List String) (tree : GTree) :
    ∃ gs, generate_groundingsT kb tree = .ok gs :=
  populateT_ok kb _ tree _ (allPending_initial tree)

theorem generate_groundings_ok (kb : String → List String) (tree : GTree) :
    ∃ gs, generate_groundings kb tree = .ok gs := by
  obtain ⟨gs, hgs⟩ := generate_groundingsT_ok kb tree
  refine ⟨gs.map Prod.fst, ?_⟩
  unfold generate_groundings
  rw [populate_eq_populateT]
  unfold generate_groundingsT at hgs
  rw [hgs]
  rfl

/-! ### The fuel bound is irrelevant once it exceeds the wildcard count -/

theorem populate_go_congr (recur1 recur2 : GTree → CMap → Except Unit (List GTree))
    (tree : GTree) (cm : CMap) (w : Wildcard) (item : CVal)
    (h : ∀ (c : String) (cm2 : CMap),
      recur1 (replace_child_in_tree tree w c) cm2 =
        recur2 (replace_child_in_tree tree w c) cm2) :
    ∀ cs : List String,
      populate_go recur1 tree cm w item cs = populate_go recur2 tree cm w item cs := by
  intro cs
  induction cs with
  | nil => rfl
  | cons c rest ih =>
    cases item with
    | cval s => rfl
    | cset l =>
      simp only [populate_go]
      by_cases hacc : l.all (fun o => !(cmapGet cm o == CVal.cval c)) = true
      · rw [if_pos hacc, if_pos hacc, h c (cmapSet cm w (.cval c)), ih]
      · rw [if_neg hacc, if_neg hacc, ih]

theorem populate_fuel_mono (kb : String → List String) :
    ∀ (fuel : Nat) (tree : GTree) (cm : CMap),
      (get_wildcards tree).length < fuel →
      populate kb (fuel + 1) tree cm = populate kb fuel tree cm := by
  intro fuel
  induction fuel with
  | zero => exact fun tree cm h => absurd h (Nat.not_lt_zero _)
  | succ fuel ih =>
    intro tree cm h
    simp only [populate]
    cases hws : get_wildcards tree with
    | nil => rfl
    | cons w rest =>
      refine populate_go_congr _ _ tree cm w (cmapGet cm w) ?_ (kb w.name)
      intro c cm2
      refine ih (replace_child_in_tree tree w c) cm2 ?_
      rw [get_wildcards_replace, hws]
      have h1 : (List.filter (fun x => !(x == w)) (w :: rest)).length ≤ rest.length := by
        have : List.filter (fun x => !(x == w)) (w :: rest) =
            List.filter (fun x => !(x == w)) rest := by
          simp [List.filter_cons]
        rw [this]
        exact List.length_filter_le _ _
      have h2 : rest.length < fuel := by
        rw [hws] at h
        exact Nat.lt_of_succ_lt_succ h
      exact Nat.lt_of_le_of_lt h1 h2

theorem populate_fuel_ge (kb : String → List String) :
    ∀ (fuel : Nat) (tree : GTree) (cm : CMap),
      (get_wildcards tree).length < fuel →
      populate kb fuel tree cm =
        populate kb ((get_wildcards tree).length + 1) tree cm := by
  intro fuel
  induction fuel with
  | zero => exact fun tree cm h => absurd h (Nat.not_lt_zero _)
  | succ fuel ih =>
    intro tree cm h
    by_cases hf : (get_wildcards tree).length < fuel
    · rw [populate_fuel_mono kb fuel tree cm hf]
      exact ih tree cm hf
    · have : fuel = (get_wildcards tree).length :=
        Nat.le_antisymm (Nat.le_of_not_lt hf) (Nat.lt_succ_iff.mp h)
      rw [this]

/-- Any two sufficient fuel bounds give the same search result: the fuel
parameter is an artifact of the embedding, not of the algorithm. -/
theorem populate_fuel_irrelevant (kb : String → List String) (f1 f2 : Nat)
    (tree : GTree) (cm : CMap) (h1 : (get_wildcards tree).length < f1)
    (h2 : (get_wildcards tree).length < f2) :
    populate kb f1 tree cm = populate kb f2 tree cm := by
  rw [populate_fuel_ge kb f1 tree cm h1, populate_fuel_ge kb f2 tree cm h2]


/-! ### Preservation of the distinctness invariant along the search -/

theorem cval_ne_cset (s : String) (l : List Wildcard) :
    CVal.cval s ≠ CVal.cset l := fun h => by cases h

/-- One accepted search step preserves the invariant. -/
theorem searchInv_step (a b : Wildcard) (hab : a ≠ b) (tree : GTree) (cm : CMap)
    (w : Wildcard) (rest : List Wildcard) (c : String) (l : List Wildcard)
    (hws : get_wildcards tree = w :: rest)
    (hitem : cmapGet cm w = .cset l)
    (hacc : l.all (fun o => !(cmapGet cm o == CVal.cval c)) = true)
    (hinv : searchInv a b tree cm) :
    searchInv a b (replace_child_in_tree tree w c) (cmapSet cm w (.cval c)) := by
  have hws2 : get_wildcards (replace_child_in_tree tree w c) =
      (get_wildcards tree).filter (fun x => !(x == w)) := get_wildcards_replace tree w c
  rcases hinv with ⟨hocc, L, hgetb, haL⟩ | ⟨va, L, hgeta, hbmem, hgetb, haL⟩ |
    ⟨va, vb, hgeta, hgetb, hne⟩
  · -- neither resolved: a first, a in b's pending set
    obtain ⟨l1, l2, hsplit, hal1, hbl1, hbl2⟩ := hocc
    have hbtree : b ∈ get_wildcards tree := by
      rw [hsplit]
      exact List.mem_append.mpr (Or.inr (List.mem_cons_of_mem a hbl2))
    by_cases hwa : w = a
    · -- the step resolves a
      subst hwa
      right; left
      refine ⟨c, L, cmapGet_set_eq cm w (.cval c), ?_, ?_, haL⟩
      · rw [hws2]
        refine List.mem_filter.mpr ⟨hbtree, (bnot_beq_true_iff b w).mpr (Ne.symm hab)⟩
      · rw [cmapGet_set_ne cm w b (.cval c) (Ne.symm hab)]
        exact hgetb
    · -- the step resolves an unrelated wildcard
      have hwb : w ≠ b := by
        intro hwb
        subst hwb
        rw [hsplit] at hws
        cases l1 with
        | nil =>
          simp only [List.nil_append, List.cons.injEq] at hws
          exact hwa hws.1.symm
        | cons x l1' =>
          simp only [List.cons_append, List.cons.injEq] at hws
          exact hbl1 (by rw [← hws.1]; exact List.mem_cons_self x l1')
      left
      constructor
      · refine ⟨l1.filter (fun x => !(x == w)), l2.filter (fun x => !(x == w)), ?_, ?_, ?_, ?_⟩
        · rw [hws2, hsplit, List.filter_append, List.filter_cons,
            if_pos ((bnot_beq_true_iff a w).mpr (fun h => hwa h.symm))]
        · intro hmem
          exact hal1 (List.mem_of_mem_filter hmem)
        · intro hmem
          exact hbl1 (List.mem_of_mem_filter hmem)
        · exact List.mem_filter.mpr ⟨hbl2, (bnot_beq_true_iff b w).mpr (fun h => hwb h.symm)⟩
      · refine ⟨L, ?_, haL⟩
        rw [cmapGet_set_ne cm w b (.cval c) (fun h => hwb h.symm)]
        exact hgetb
  · -- a resolved, b pending and constrained against a
    have hwa : w ≠ a := by
      intro hwa
      rw [hwa, hgeta] at hitem
      exact cval_ne_cset va l hitem
    by_cases hwb : w = b
    · -- the step resolves b: the acceptance check compared against a's value
      subst hwb
      have hlL : CVal.cset l = CVal.cset L := hitem.symm.trans hgetb
      have hlL2 : l = L := by cases hlL; rfl
      right; right
      refine ⟨va, c, ?_, cmapGet_set_eq cm w (.cval c), ?_⟩
      · rw [cmapGet_set_ne cm w a (.cval c) (Ne.symm hwa)]
        exact hgeta
      · intro hvac
        have h3 := List.all_eq_true.mp hacc a (by rw [hlL2]; exact haL)
        rw [hgeta, hvac] at h3
        simp at h3
    · right; left
      refine ⟨va, L, ?_, ?_, ?_, haL⟩
      · rw [cmapGet_set_ne cm w a (.cval c) (Ne.symm hwa)]
        exact hgeta
      · rw [hws2]
        exact List.mem_filter.mpr ⟨hbmem, (bnot_beq_true_iff b w).mpr (fun h => hwb h.symm)⟩
      · rw [cmapGet_set_ne cm w b (.cval c) (fun h => hwb h.symm)]
        exact hgetb
  · -- both already resolved
    have hwa : w ≠ a := by
      intro hwa
      rw [hwa, hgeta] at hitem
      exact cval_ne_cset va l hitem
    have hwb : w ≠ b := by
      intro hwb
      rw [hwb, hgetb] at hitem
      exact cval_ne_cset vb l hitem
    right; right
    refine ⟨va, vb, ?_, ?_, hne⟩
    · rw [cmapGet_set_ne cm w a (.cval c) (Ne.symm hwa)]
      exact hgeta
    · rw [cmapGet_set_ne cm w b (.cval c) (Ne.symm hwb)]
      exact hgetb


/-- At a leaf of the search the invariant collapses to both wildcards being
resolved with distinct values. -/
theorem searchInv_leaf (a b : Wildcard) (tree : GTree) (cm : CMap)
    (hws : get_wildcards tree = []) (hinv : searchInv a b tree cm) :
    distinctFixed a b cm := by
  rcases hinv with ⟨hocc, _⟩ | ⟨va, L, _, hbmem, _⟩ | hP2
  · obtain ⟨l1, l2, hsplit, _, _, _⟩ := hocc
    rw [hws] at hsplit
    cases l1 <;> simp at hsplit
  · rw [hws] at hbmem
    cases hbmem
  · exact hP2

/-- Every grounding the instrumented search yields from an invariant state
fixes a and b to distinct values. -/
theorem populateT_searchInv (kb : String → List String) (a b : Wildcard) (hab : a ≠ b) :
    ∀ (fuel : Nat) (tree : GTree) (cm : CMap) (gs : List (GTree × CMap)),
      searchInv a b tree cm → populateT kb fuel tree cm = .ok gs →
      ∀ p ∈ gs, distinctFixed a b p.2 := by
  intro fuel
  induction fuel with
  | zero =>
    intro tree cm gs hinv h p hp
    simp only [populateT] at h
    cases h
    cases hp
  | succ fuel ih =>
    intro tree cm gs hinv h p hp
    cases hws : get_wildcards tree with
    | nil =>
      simp only [populateT, hws] at h
      cases h
      have hp2 : p = (tree, cm) := by simpa using hp
      rw [hp2]
      exact searchInv_leaf a b tree cm hws hinv
    | cons w rest =>
      simp only [populateT, hws] at h
      cases hitem : cmapGet cm w with
      | cval s =>
        rw [hitem] at h
        cases hcs : kb w.name with
        | nil =>
          rw [hcs] at h
          simp only [populateT_go] at h
          cases h
          cases hp
        | cons c cs2 =>
          rw [hcs] at h
          simp only [populateT_go] at h
          simp at h
      | cset l =>
        rw [hitem] at h
        obtain ⟨c, hc, hacc, gs1, hrec, hp1⟩ :=
          populateT_go_ok_mem (populateT kb fuel) tree cm w l (kb w.name) gs h p hp
        exact ih (replace_child_in_tree tree w c) (cmapSet cm w (.cval c)) gs1
          (searchInv_step a b hab tree cm w rest c l hws hitem hacc hinv) hrec p hp1

/-- With a occurring first among the tree's wildcards, the built constraint
map starts the search in the invariant. -/
theorem searchInv_initial (tree : GTree) (a b : Wildcard) (hn : a.name = b.name)
    (hi : a.id ≠ b.id) (ha : a.id ≠ "") (hb : b.id ≠ "")
    (hocc : occBefore a b (get_wildcards tree)) :
    searchInv a b tree (build_constraints (get_wildcards tree)) := by
  obtain ⟨l1, l2, hsplit, hal1, hbl1, hbl2⟩ := hocc
  obtain ⟨L, hgetb, haL⟩ :=
    build_constraints_edge (get_wildcards tree) a b hn hi ha hb l1 l2 hsplit hbl2
  exact Or.inl ⟨⟨l1, l2, hsplit, hal1, hbl1, hbl2⟩, L, hgetb, haL⟩

/-- Distinctness over the instrumented search: any two same-name wildcards
with distinct non-empty ids occurring in the tree end up fixed to distinct
candidate values in every yielded grounding. -/
theorem groundingsT_distinct (kb : String → List String) (tree : GTree)
    (a b : Wildcard) (hn : a.name = b.name) (hi : a.id ≠ b.id)
    (ha : a.id ≠ "") (hb : b.id ≠ "")
    (hma : a ∈ get_wildcards tree) (hmb : b ∈ get_wildcards tree)
    (gs : List (GTree × CMap)) (h : generate_groundingsT kb tree = .ok gs) :
    ∀ p ∈ gs, ∃ va vb, cmapGet p.2 a = .cval va ∧ cmapGet p.2 b = .cval vb ∧ va ≠ vb := by
  have hab : a ≠ b := fun hh => hi (congrArg Wildcard.id hh)
  unfold generate_groundingsT at h
  rcases occBefore_total (get_wildcards tree) a b hma hmb hab with hocc | hocc
  · intro p hp
    exact populateT_searchInv kb a b hab _ tree _ gs
      (searchInv_initial tree a b hn hi ha hb hocc) h p hp
  · intro p hp
    have h2 := populateT_searchInv kb b a (Ne.symm hab) _ tree _ gs
      (searchInv_initial tree b a hn.symm (Ne.symm hi) hb ha hocc) h p hp
    obtain ⟨vb, va, hgb, hga, hne⟩ := h2
    exact ⟨va, vb, hga, hgb, Ne.symm hne⟩


/-! ### Rule-table loading -/

theorem ruleLookup_extend (r : RuleDict) (lhs : String) (rhs : List GTree) (s : String) :
    ruleLookup (ruleExtend r lhs rhs) s =
      if s = lhs then some (ruleLookupD r s ++ rhs) else ruleLookup r s := by
  induction r with
  | nil =>
    by_cases h : s = lhs
    · subst h
      simp [ruleExtend, ruleLookup, ruleLookupD]
    · have h2 : ¬(lhs = s) := fun hh => h hh.symm
      simp [ruleExtend, ruleLookup, ruleLookupD, h, h2]
  | cons p rest ih =>
    obtain ⟨k, v⟩ := p
    by_cases hk : k = lhs
    · subst hk
      by_cases hs : s = k
      · subst hs
        simp [ruleExtend, ruleLookup, ruleLookupD]
      · have hs2 : ¬(s = k) := hs
        have hs3 : ¬(k = s) := fun hh => hs hh.symm
        simp [ruleExtend, ruleLookup, hs2, hs3]
    · by_cases hs : k = s
      · subst hs
        simp [ruleExtend, ruleLookup, hk]
      · have hs2 : ¬(s = k) := fun hh => hs hh.symm
        simp only [ruleExtend, if_neg hk, ruleLookup, if_neg hs, ih]
        by_cases h2 : s = lhs
        · simp only [if_pos h2]
          have : ruleLookupD ((k, v) :: rest) s = ruleLookupD rest s := by
            simp [ruleLookupD, ruleLookup, hs]
          rw [this]
        · simp only [if_neg h2]

theorem ruleLookupD_extend (r : RuleDict) (lhs : String) (rhs : List GTree) (s : String) :
    ruleLookupD (ruleExtend r lhs rhs) s =
      if s = lhs then ruleLookupD r s ++ rhs else ruleLookupD r s := by
  have heq := ruleLookup_extend r lhs rhs s
  by_cases h : s = lhs
  · subst h
    simp [ruleLookupD, heq]
  · simp [ruleLookupD, heq, h]

/-- The table entry for a symbol after a load is the previous entry
followed, in load order, by the expanded alternative lists of every
non-comment line with that left-hand side, with no deduplication. -/
theorem load_rules_lookup (lines : List (Option String × List GTree)) :
    ∀ (r : RuleDict) (s : String),
      ruleLookupD (load_rules r lines).1 s =
        ruleLookupD r s ++
          (lines.filterMap
            (fun pl => if pl.1 = some s then some pl.2 else none)).flatten := by
  induction lines with
  | nil => intro r s; simp [load_rules]
  | cons line rest ih =>
    intro r s
    obtain ⟨lhs?, rhs⟩ := line
    cases lhs? with
    | none =>
      simp only [load_rules, List.filterMap_cons]
      have hcond : (if (none : Option String) = some s then some rhs else none) = none := by
        simp
      simp only [hcond]
      exact ih r s
    | some lhs =>
      simp only [load_rules]
      rw [ih (ruleExtend r lhs rhs) s, ruleLookupD_extend]
      by_cases h : s = lhs
      · subst h
        simp [List.filterMap_cons, List.append_assoc]
      · have hcond : (if (some lhs : Option String) = some s then some rhs else none)
            = none := if_neg (fun hh => h (Option.some.inj hh).symm)
        simp only [List.filterMap_cons, hcond, if_neg h]

/-- Loading line lists one after the other equals loading their
concatenation: per-symbol entries concatenate across load calls. -/
theorem load_rules_append (l1 l2 : List (Option String × List GTree)) :
    ∀ r : RuleDict,
      (load_rules r (l1 ++ l2)).1 = (load_rules (load_rules r l1).1 l2).1 := by
  induction l1 with
  | nil => intro r; rfl
  | cons line rest ih =>
    intro r
    obtain ⟨lhs?, rhs⟩ := line
    cases lhs? with
    | none => simp only [List.cons_append, load_rules]; exact ih r
    | some lhs => simp only [List.cons_append, load_rules]; exact ih (ruleExtend r lhs rhs)

/-! ### zip_longest pairing -/

theorem zip_longest_fill_length {α : Type} (fill : α) :
    ∀ xs ys : List α,
      (zip_longest_fill fill xs ys).length = max xs.length ys.length
  | [], ys => by
    simp only [zip_longest_fill, List.length_map, List.length_nil]
    omega
  | x :: xs, [] => by
    simp only [zip_longest_fill, List.length_cons, List.length_nil,
      zip_longest_fill_length fill xs []]
    omega
  | x :: xs, y :: ys => by
    simp only [zip_longest_fill, List.length_cons,
      zip_longest_fill_length fill xs ys]
    omega

theorem map_fill_getD {α : Type} (fill : α) :
    ∀ (ys : List α) (i : Nat) (d : α × α), i < ys.length →
      (ys.map (fun y => (fill, y))).getD i d = (fill, ys.getD i fill)
  | [], i, d, hi => by simp at hi
  | y :: ys, 0, d, hi => by simp
  | y :: ys, i + 1, d, hi => by
    simp only [List.map_cons, List.getD_cons_succ]
    exact map_fill_getD fill ys i d (Nat.lt_of_succ_lt_succ hi)

theorem zip_longest_fill_getD {α : Type} (fill : α) :
    ∀ (xs ys : List α) (i : Nat) (d : α × α), i < max xs.length ys.length →
      (zip_longest_fill fill xs ys).getD i d = (xs.getD i fill, ys.getD i fill)
  | [], ys, i, d, hi => by
    have hi2 : i < ys.length := by
      simp only [List.length_nil] at hi
      omega
    have hd : ([] : List α).getD i fill = fill := by
      cases i <;> rfl
    show (ys.map (fun y => (fill, y))).getD i d = (([] : List α).getD i fill, ys.getD i fill)
    rw [map_fill_getD fill ys i d hi2, hd]
  | x :: xs, [], 0, d, hi => by simp [zip_longest_fill]
  | x :: xs, [], i + 1, d, hi => by
    simp only [zip_longest_fill, List.getD_cons_succ]
    have hi2 : i < max xs.length ([] : List α).length := by
      simp only [List.length_cons, List.length_nil] at hi ⊢
      omega
    rw [zip_longest_fill_getD fill xs [] i d hi2]
    simp
  | x :: xs, y :: ys, 0, d, hi => by simp [zip_longest_fill]
  | x :: xs, y :: ys, i + 1, d, hi => by
    simp only [zip_longest_fill, List.getD_cons_succ]
    have hi2 : i < max xs.length ys.length := by
      simp only [List.length_cons] at hi
      omega
    rw [zip_longest_fill_getD fill xs ys i d hi2]

/-! ### Python str.split on the equals sign -/

theorem pySplit_length (sep : Char) :
    ∀ l : List Char, (pySplit sep l).length = l.count sep + 1 := by
  intro l
  induction l with
  | nil => rfl
  | cons c rest ih =>
    simp only [pySplit]
    by_cases h : c = sep
    · rw [if_pos h, h, List.length_cons, ih, List.count_cons_self]
    · rw [if_neg h]
      cases hps : pySplit sep rest with
      | nil => rw [hps] at ih; simp at ih
      | cons seg segs =>
        rw [hps] at ih
        simp only [List.length_cons] at ih ⊢
        rw [List.count_cons_of_ne (Ne.symm h) rest]
        exact ih

theorem pySplit_no_sep (sep : Char) :
    ∀ l : List Char, sep ∉ l → pySplit sep l = [l] := by
  intro l
  induction l with
  | nil => intro h; rfl
  | cons c rest ih =>
    intro h
    have hc : ¬c = sep := fun hh => h (by rw [hh]; exact List.mem_cons_self sep rest)
    have hrest : sep ∉ rest := fun hh => h (List.mem_cons_of_mem c hh)
    simp only [pySplit, if_neg hc, ih hrest]

theorem pySplit_single (sep : Char) :
    ∀ l1 l2 : List Char, sep ∉ l1 → sep ∉ l2 →
      pySplit sep (l1 ++ sep :: l2) = [l1, l2] := by
  intro l1
  induction l1 with
  | nil =>
    intro l2 h1 h2
    have hstep : pySplit sep (sep :: l2) = [] :: pySplit sep l2 := by
      simp [pySplit]
    rw [List.nil_append, hstep, pySplit_no_sep sep l2 h2]
  | cons c l1' ih =>
    intro l2 h1 h2
    have hc : ¬c = sep := fun hh => h1 (by rw [hh]; exact List.mem_cons_self sep l1')
    have h1' : sep ∉ l1' := fun hh => h1 (List.mem_cons_of_mem c hh)
    rw [List.cons_append]
    simp only [pySplit, if_neg hc]
    rw [ih l2 h1' h2]


/-! ### Semantics-table pair processing -/

theorem semGet_set (d : SemDict) (k v : GTree) (k2 : GTree) :
    semGet (semSet d k v) k2 = if k = k2 then some v else semGet d k2 := by
  induction d with
  | nil => rfl
  | cons p rest ih =>
    obtain ⟨p1, s1⟩ := p
    by_cases h : p1 = k
    · subst h
      by_cases h2 : p1 = k2 <;> simp [semSet, semGet, h2]
    · by_cases h2 : p1 = k2
      · subst h2
        have h3 : ¬(k = p1) := fun hh => h hh.symm
        simp [semSet, semGet, h, h3]
      · simp [semSet, semGet, h, h2, ih]

theorem violates_iff_any (prod sem : GTree) :
    ((if isLarkTree sem then get_wildcards_forest [sem] else []).any
        (fun x => !(decide (x ∈ get_wildcards_forest [prod])))) = true ↔
      violatesPair (prod, sem) := by
  simp [violatesPair, List.any_eq_true]

theorem except_map_error_iff {α β : Type} (f : α → β) (e : Except Unit α) :
    Except.map f e = .error () ↔ e = .error () := by
  cases e with
  | error u => cases u; simp [Except.map]
  | ok a => simp [Except.map]

/-- The pair loop raises the unbound-wildcard error exactly when some pair
has a tree-shaped semantics side mentioning a wildcard absent from its
production side. -/
theorem process_pairs_error_iff :
    ∀ (pairs : List (GTree × GTree)) (d : SemDict),
      (process_pairs pairs d).2 = .error () ↔ ∃ p ∈ pairs, violatesPair p := by
  intro pairs
  induction pairs with
  | nil =>
    intro d
    simp [process_pairs]
  | cons hd tl ih =>
    intro d
    obtain ⟨prod, sem⟩ := hd
    simp only [process_pairs]
    by_cases hcond : ((if isLarkTree sem then get_wildcards_forest [sem] else []).any
        (fun x => !(decide (x ∈ get_wildcards_forest [prod])))) = true
    · rw [if_pos hcond]
      constructor
      · intro _
        exact ⟨(prod, sem), List.mem_cons_self _ _, (violates_iff_any prod sem).mp hcond⟩
      · intro _
        rfl
    · rw [if_neg hcond]
      rw [except_map_error_iff]
      rw [ih (semSet d prod sem)]
      constructor
      · intro ⟨p, hp, hv⟩
        exact ⟨p, List.mem_cons_of_mem _ hp, hv⟩
      · intro ⟨p, hp, hv⟩
        rcases List.mem_cons.mp hp with hh | hh
        · exfalso
          rw [hh] at hv
          exact hcond ((violates_iff_any prod sem).mpr hv)
        · exact ⟨p, hh, hv⟩

/-- Every pair in the table after the loop satisfies the wildcard-scope
invariant, provided the table did before: a violating pair is never
registered, also in an erroring run. -/
theorem process_pairs_registered :
    ∀ (pairs : List (GTree × GTree)) (d : SemDict),
      (∀ k v, semGet d k = some v → semPairOk k v) →
      ∀ k v, semGet (process_pairs pairs d).1 k = some v → semPairOk k v := by
  intro pairs
  induction pairs with
  | nil =>
    intro d hd k v hget
    exact hd k v hget
  | cons hd2 tl ih =>
    intro d hd k v hget
    obtain ⟨prod, sem⟩ := hd2
    simp only [process_pairs] at hget
    by_cases hcond : ((if isLarkTree sem then get_wildcards_forest [sem] else []).any
        (fun x => !(decide (x ∈ get_wildcards_forest [prod])))) = true
    · rw [if_pos hcond] at hget
      exact hd k v hget
    · rw [if_neg hcond] at hget
      refine ih (semSet d prod sem) ?_ k v hget
      intro k2 v2 hget2
      rw [semGet_set] at hget2
      by_cases hk : prod = k2
      · rw [if_pos hk] at hget2
        have hv2 : sem = v2 := by cases hget2; rfl
        intro w hw
        rw [← hv2] at hw
        rw [← hk]
        have hcond2 : ((if isLarkTree sem then get_wildcards_forest [sem] else []).any
            (fun x => !(decide (x ∈ get_wildcards_forest [prod])))) = false := by
          cases hX : ((if isLarkTree sem then get_wildcards_forest [sem] else []).any
              (fun x => !(decide (x ∈ get_wildcards_forest [prod])))) with
          | true => exact absurd hX hcond
          | false => rfl
        have h3 := List.any_eq_false.mp hcond2 w hw
        simp at h3
        exact h3
      · rw [if_neg hk] at hget2
        exact hd k2 v2 hget2

/-! ### The freedom of id-empty wildcards during the search -/

/-- With an empty pending constraint set, the candidate loop rejects
nothing: it coincides with the loop that substitutes every candidate. -/
theorem populate_go_free (recur : GTree → CMap → Except Unit (List GTree))
    (tree : GTree) (cm : CMap) (w : Wildcard) :
    ∀ cs : List String,
      populate_go recur tree cm w (.cset []) cs = populate_all recur tree cm w cs := by
  intro cs
  induction cs with
  | nil => rfl
  | cons c rest ih =>
    have hstep : populate_go recur tree cm w (.cset []) (c :: rest) =
        match recur (replace_child_in_tree tree w c) (cmapSet cm w (.cval c)) with
        | .error e => .error e
        | .ok gs =>
          match populate_go recur tree cm w (.cset []) rest with
          | .error e => .error e
          | .ok gs2 => .ok (gs ++ gs2) := rfl
    rw [hstep]
    simp only [ih]
    rfl


/-! ### The store-passing search: allocation facts -/

theorem store_alloc_set (sigma : Store) (x y : GTree × CMap) :
    (sigma ++ [x]).set sigma.length y = sigma ++ [y] := by
  induction sigma with
  | nil => rfl
  | cons h t ih =>
    show h :: ((t ++ [x]).set t.length y) = h :: (t ++ [y])
    rw [ih]

theorem store_getD_append (sigma : Store) (x : GTree × CMap) :
    ∀ (j : Nat) (d : GTree × CMap), j < sigma.length →
      (sigma ++ [x]).getD j d = sigma.getD j d := by
  induction sigma with
  | nil => intro j d hj; cases hj
  | cons h t ih =>
    intro j d hj
    cases j with
    | zero => rfl
    | succ j2 =>
      show (t ++ [x]).getD j2 d = t.getD j2 d
      exact ih j2 d (Nat.lt_of_succ_lt_succ hj)

theorem store_getD_last (sigma : Store) (y : GTree × CMap) (d : GTree × CMap) :
    (sigma ++ [y]).getD sigma.length d = y := by
  induction sigma with
  | nil => rfl
  | cons h t ih =>
    show (t ++ [y]).getD t.length d = y
    exact ih

/-! ### The store-passing search never disturbs pre-existing addresses -/

theorem populateSt_frame (kb : String → List String) :
    ∀ (fuel : Nat) (sigma : Store) (addr : Nat),
      sigma.length ≤ ((populateSt kb fuel sigma addr).1).length ∧
      ∀ (j : Nat) (d : GTree × CMap), j < sigma.length →
        ((populateSt kb fuel sigma addr).1).getD j d = sigma.getD j d := by
  intro fuel
  induction fuel with
  | zero =>
    intro sigma addr
    exact ⟨Nat.le_refl _, fun j d _ => rfl⟩
  | succ fuel ih =>
    intro sigma addr
    have go : ∀ (cs : List String) (sigma2 : Store) (tree : GTree) (cm : CMap)
        (w : Wildcard) (item : CVal),
        sigma2.length ≤
          ((populateSt_go (populateSt kb fuel) sigma2 tree cm w item cs).1).length ∧
        ∀ (j : Nat) (d : GTree × CMap), j < sigma2.length →
          ((populateSt_go (populateSt kb fuel) sigma2 tree cm w item cs).1).getD j d =
            sigma2.getD j d := by
      intro cs
      induction cs with
      | nil =>
        intro sigma2 tree cm w item
        exact ⟨Nat.le_refl _, fun j d _ => rfl⟩
      | cons c rest ihc =>
        intro sigma2 tree cm w item
        cases item with
        | cval s => exact ⟨Nat.le_refl _, fun j d _ => rfl⟩
        | cset l =>
          simp only [populateSt_go]
          by_cases hacc : l.all (fun o => !(cmapGet cm o == CVal.cval c)) = true
          · rw [if_pos hacc, store_alloc_set]
            have hlen2 : sigma2.length <
                (sigma2 ++ [(replace_child_in_tree tree w c,
                  cmapSet cm w (.cval c))]).length := by
              simp
            cases hrec : populateSt kb fuel
                (sigma2 ++ [(replace_child_in_tree tree w c,
                  cmapSet cm w (.cval c))]) sigma2.length with
            | mk sigma3 r =>
              have hf := ih (sigma2 ++ [(replace_child_in_tree tree w c,
                cmapSet cm w (.cval c))]) sigma2.length
              rw [hrec] at hf
              have hlen3 : sigma2.length ≤ sigma3.length :=
                Nat.le_trans (Nat.le_of_lt hlen2) hf.1
              have hgd3 : ∀ (j : Nat) (d : GTree × CMap), j < sigma2.length →
                  sigma3.getD j d = sigma2.getD j d := by
                intro j d hj
                rw [hf.2 j d (Nat.lt_trans hj hlen2)]
                exact store_getD_append sigma2 _ j d hj
              cases r with
              | error e => exact ⟨hlen3, hgd3⟩
              | ok gs =>
                cases hgo : populateSt_go (populateSt kb fuel) sigma3 tree cm w
                    (.cset l) rest with
                | mk sigma4 r2 =>
                  have hg := ihc sigma3 tree cm w (.cset l)
                  rw [hgo] at hg
                  have hlen4 : sigma2.length ≤ sigma4.length :=
                    Nat.le_trans hlen3 hg.1
                  have hgd4 : ∀ (j : Nat) (d : GTree × CMap), j < sigma2.length →
                      sigma4.getD j d = sigma2.getD j d := by
                    intro j d hj
                    rw [hg.2 j d (Nat.lt_of_lt_of_le hj hlen3)]
                    exact hgd3 j d hj
                  simp only [hgo]
                  cases r2 with
                  | error e => exact ⟨hlen4, hgd4⟩
                  | ok gs2 => exact ⟨hlen4, hgd4⟩
          · rw [if_neg hacc]
            exact ihc sigma2 tree cm w (.cset l)
    simp only [populateSt]
    cases hws : get_wildcards (sigma.getD addr default).1 with
    | nil => exact ⟨Nat.le_refl _, fun j d _ => rfl⟩
    | cons w rest =>
      exact go (kb w.name) sigma (sigma.getD addr default).1
        (sigma.getD addr default).2 w (cmapGet (sigma.getD addr default).2 w)


/-- The store-passing search computes exactly the groundings of the pure
search applied to the state found at the given address. -/
theorem populateSt_spec (kb : String → List String) :
    ∀ (fuel : Nat) (sigma : Store) (addr : Nat),
      (populateSt kb fuel sigma addr).2 =
        populate kb fuel (sigma.getD addr default).1 (sigma.getD addr default).2 := by
  intro fuel
  induction fuel with
  | zero => intro sigma addr; rfl
  | succ fuel ih =>
    intro sigma addr
    have go : ∀ (cs : List String) (sigma2 : Store) (tree : GTree) (cm : CMap)
        (w : Wildcard) (item : CVal),
        (populateSt_go (populateSt kb fuel) sigma2 tree cm w item cs).2 =
          populate_go (populate kb fuel) tree cm w item cs := by
      intro cs
      induction cs with
      | nil => intro sigma2 tree cm w item; rfl
      | cons c rest ihc =>
        intro sigma2 tree cm w item
        cases item with
        | cval s => rfl
        | cset l =>
          simp only [populateSt_go, populate_go]
          by_cases hacc : l.all (fun o => !(cmapGet cm o == CVal.cval c)) = true
          · rw [if_pos hacc, if_pos hacc, store_alloc_set]
            have hs := ih (sigma2 ++ [(replace_child_in_tree tree w c,
              cmapSet cm w (.cval c))]) sigma2.length
            rw [store_getD_last] at hs
            cases hrec : populateSt kb fuel
                (sigma2 ++ [(replace_child_in_tree tree w c,
                  cmapSet cm w (.cval c))]) sigma2.length with
            | mk sigma3 r =>
              rw [hrec] at hs
              rw [← hs]
              cases r with
              | error e => rfl
              | ok gs =>
                rw [← ihc sigma3 tree cm w (.cset l)]
                cases hgo : populateSt_go (populateSt kb fuel) sigma3 tree cm w
                    (.cset l) rest with
                | mk sigma4 r2 =>
                  cases r2 with
                  | error e => rfl
                  | ok gs2 => rfl
          · rw [if_neg hacc, if_neg hacc]
            exact ihc sigma2 tree cm w (.cset l)
    simp only [populateSt, populate]
    cases hws : get_wildcards (sigma.getD addr default).1 with
    | nil => rfl
    | cons w rest =>
      exact go (kb w.name) sigma (sigma.getD addr default).1
        (sigma.getD addr default).2 w (cmapGet (sigma.getD addr default).2 w)


/-! ### The claims -/

/-- C1: for every tree containing two wildcards with the same name and
distinct non-empty ids, every grounding yielded by generate_groundings /
__populate_with_constraints assigns the two placeholders different
candidate values (stated over the instrumented search, whose first
projection is proved to be generate_groundings); in particular, for the
knowledge base byName person = [alice, bob] the search yields exactly the
two groundings (alice, bob) and (bob, alice). -/
theorem claim_c1_distinctness (kb : String → List String) (tree : GTree) (a b : Wildcard)
    (hn : a.name = b.name) (hi : a.id ≠ b.id) (ha : a.id ≠ "") (hb : b.id ≠ "")
    (hma : a ∈ get_wildcards tree) (hmb : b ∈ get_wildcards tree) :
    (generate_groundings kb tree =
      (generate_groundingsT kb tree).map (List.map Prod.fst)) ∧
    (∀ gs, generate_groundingsT kb tree = .ok gs →
      ∀ p ∈ gs, ∃ va vb, cmapGet p.2 a = .cval va ∧ cmapGet p.2 b = .cval vb ∧ va ≠ vb) ∧
    generate_groundings kbTwoPeople personTree =
      .ok [.node "expr" [.tok "alice", .tok "bob"],
           .node "expr" [.tok "bob", .tok "alice"]] := by
  refine ⟨?_, ?_, rfl⟩
  · unfold generate_groundings generate_groundingsT
    exact populate_eq_populateT kb _ tree _
  · intro gs h p hp
    exact groundingsT_distinct kb tree a b hn hi ha hb hma hmb gs h p hp

theorem claim_c1_distinctness_witness :
    ∃ va vb,
      cmapGet [(personW1, CVal.cval "alice"), (personW2, CVal.cval "bob")] personW1 =
        .cval va ∧
      cmapGet [(personW1, CVal.cval "alice"), (personW2, CVal.cval "bob")] personW2 =
        .cval vb ∧ va ≠ vb := by
  have h := (claim_c1_distinctness kbTwoPeople personTree personW1 personW2 rfl
    (by decide) (by decide) (by decide) (by decide) (by decide)).2.1
  exact h
    [(GTree.node "expr" [GTree.tok "alice", GTree.tok "bob"],
        [(personW1, CVal.cval "alice"), (personW2, CVal.cval "bob")]),
     (GTree.node "expr" [GTree.tok "bob", GTree.tok "alice"],
        [(personW1, CVal.cval "bob"), (personW2, CVal.cval "alice")])]
    rfl _ (List.mem_cons_self _ _)

/-- C2: whenever the grounding search yields no grounding (and no error),
ground fails with the no-grounding error, the StopIteration of next() that
the spec names NoGroundingFound, rather than returning a value or failing
with the assertion error; scenario 4, byName person = [alice] with two
co-indexed person placeholders, is the concrete closed instance. -/
theorem claim_c2_no_grounding_found (kb : String → List String) (tree : GTree)
    (h : generate_groundings kb tree = .ok []) :
    ground kb tree = .error .noGroundingFound ∧
    generate_groundings kbOnePerson personTree = .ok [] ∧
    ground kbOnePerson personTree = .error .noGroundingFound := by
  refine ⟨?_, rfl, rfl⟩
  unfold ground
  rw [h]

theorem claim_c2_no_grounding_found_witness :
    ground kbOnePerson personTree = .error .noGroundingFound :=
  (claim_c2_no_grounding_found kbOnePerson personTree rfl).1

/-- C3: a tree with no remaining wildcard is yielded itself as the single
complete grounding: the search's base case returns exactly one result, for
any constraint map and any positive fuel, and generate_groundings on such a
tree returns exactly that tree. -/
theorem claim_c3_wildcard_free_base (kb : String → List String) (tree : GTree)
    (h : get_wildcards tree = []) :
    (∀ (fuel : Nat) (cm : CMap), populate kb (fuel + 1) tree cm = .ok [tree]) ∧
    generate_groundings kb tree = .ok [tree] := by
  constructor
  · intro fuel cm
    simp only [populate, h]
  · unfold generate_groundings
    simp only [populate, h]

theorem claim_c3_wildcard_free_base_witness :
    generate_groundings kbTwoPeople (GTree.node "greeting" [GTree.tok "hello"]) =
      .ok [GTree.node "greeting" [GTree.tok "hello"]] :=
  (claim_c3_wildcard_free_base kbTwoPeople
    (GTree.node "greeting" [GTree.tok "hello"]) rfl).2

/-- C4: the registered pairs are the positional zip of the expanded
production and semantics lists padded to the longer length, every filler
being the first expanded semantics element; in particular, when the
production list is the shorter one, the semantics-side filler occupies the
production position of the padded pairs. -/
theorem claim_c4_pairing (expanded_prod expanded_sem : List GTree) (e0 : GTree)
    (tl : List GTree) (hes : expanded_sem = e0 :: tl) :
    ∃ pairs, rule_pairs expanded_prod expanded_sem = some pairs ∧
      pairs.length = max expanded_prod.length expanded_sem.length ∧
      (∀ (i : Nat) (d : GTree × GTree),
        i < max expanded_prod.length expanded_sem.length →
        pairs.getD i d = (expanded_prod.getD i e0, expanded_sem.getD i e0)) ∧
      (∀ (i : Nat) (d : GTree × GTree), expanded_prod.length ≤ i →
        i < expanded_sem.length → pairs.getD i d = (e0, expanded_sem.getD i e0)) := by
  subst hes
  refine ⟨zip_longest_fill e0 expanded_prod (e0 :: tl), rfl,
    zip_longest_fill_length e0 _ _, ?_, ?_⟩
  · intro i d hi
    exact zip_longest_fill_getD e0 _ _ i d hi
  · intro i d h1 h2
    rw [zip_longest_fill_getD e0 _ _ i d (lt_of_lt_of_le h2 (le_max_right _ _))]
    rw [List.getD_eq_default _ _ h1]

theorem claim_c4_pairing_witness :
    rule_pairs [GTree.tok "p"] [GTree.tok "s1", GTree.tok "s2"] =
      some [(GTree.tok "p", GTree.tok "s1"), (GTree.tok "s1", GTree.tok "s2")] ∧
    [(GTree.tok "p", GTree.tok "s1"), (GTree.tok "s1", GTree.tok "s2")].getD 1
        (GTree.tok "z", GTree.tok "z") = (GTree.tok "s1", GTree.tok "s2") := by
  obtain ⟨pairs, hp, hlen, hget, hfill⟩ := claim_c4_pairing [GTree.tok "p"]
    [GTree.tok "s1", GTree.tok "s2"] (GTree.tok "s1") [GTree.tok "s2"] rfl
  have hcomp : rule_pairs [GTree.tok "p"] [GTree.tok "s1", GTree.tok "s2"] =
      some [(GTree.tok "p", GTree.tok "s1"), (GTree.tok "s1", GTree.tok "s2")] := rfl
  refine ⟨hcomp, ?_⟩
  have hpe : pairs = [(GTree.tok "p", GTree.tok "s1"), (GTree.tok "s1", GTree.tok "s2")] :=
    Option.some.inj ((hp.symm).trans hcomp)
  rw [← hpe]
  exact hfill 1 (GTree.tok "z", GTree.tok "z") (by decide) (by decide)

/-- C5 counterexample: a semantics line containing two equals signs is not
split at the first one; the unpacking of str.split fails instead, because
line 121 of generator.py calls split without a maxsplit bound. -/
theorem claim_c5_counterexample :
    split_rule_line ("a=b=c".toList) = .unpackError ∧
    SplitResult.unpackError ≠ SplitResult.pair ("a".toList) ("b=c".toList) := by
  exact ⟨rfl, by decide⟩

/-- C5 amended: a line without an equals sign is skipped as a comment; a
line with exactly one equals sign is split there into production text and
semantics text; a line with two or more equals signs makes the loader fail
with an unpacking error instead of being processed. -/
theorem claim_c5_amended (line : List Char) :
    (('=' ∉ line) → split_rule_line line = .comment) ∧
    (∀ l1 l2 : List Char, line = l1 ++ '=' :: l2 → '=' ∉ l1 → '=' ∉ l2 →
      split_rule_line line = .pair l1 l2) ∧
    (2 ≤ line.count '=' → split_rule_line line = .unpackError) := by
  refine ⟨?_, ?_, ?_⟩
  · intro h
    simp [split_rule_line, h]
  · intro l1 l2 hline h1 h2
    subst hline
    have hmem : '=' ∈ l1 ++ '=' :: l2 :=
      List.mem_append.mpr (Or.inr (List.mem_cons_self _ _))
    simp only [split_rule_line, if_pos hmem]
    rw [pySplit_single '=' l1 l2 h1 h2]
  · intro h
    have hmem : '=' ∈ line := by
      have hpos : 0 < line.count '=' := lt_of_lt_of_le (by decide) h
      exact List.count_pos_iff.mp hpos
    simp only [split_rule_line, if_pos hmem]
    have hlen : 3 ≤ (pySplit '=' line).length := by
      rw [pySplit_length]
      omega
    cases hps : pySplit '=' line with
    | nil => rfl
    | cons s1 restl =>
      cases restl with
      | nil => rfl
      | cons s2 restl2 =>
        cases restl2 with
        | nil =>
          rw [hps] at hlen
          simp at hlen
        | cons s3 restl3 => rfl

theorem claim_c5_amended_witness :
    split_rule_line ("ab".toList) = .comment ∧
    split_rule_line ("a=b".toList) = .pair ("a".toList) ("b".toList) ∧
    split_rule_line ("a=b=c".toList) = .unpackError := by
  refine ⟨(claim_c5_amended ("ab".toList)).1 (by decide), ?_,
    (claim_c5_amended ("a=b=c".toList)).2.2 (by decide)⟩
  exact (claim_c5_amended ("a=b".toList)).2.1 ("a".toList) ("b".toList)
    (by decide) (by decide) (by decide)

/-- C6: the pair loop of semantics loading raises the unbound-wildcard
error exactly when some paired semantics tree mentions a wildcard absent
from its paired production tree, the violating pair is not registered, and
every registered pair has its semantics wildcards contained in its
production wildcards. -/
theorem claim_c6_unbound_wildcard (pairs : List (GTree × GTree)) (d : SemDict) :
    ((process_pairs pairs d).2 = .error () ↔ ∃ p ∈ pairs, violatesPair p) ∧
    ((∀ k v, semGet d k = some v → semPairOk k v) →
      ∀ k v, semGet (process_pairs pairs d).1 k = some v → semPairOk k v) :=
  ⟨process_pairs_error_iff pairs d, process_pairs_registered pairs d⟩

theorem claim_c6_unbound_wildcard_witness :
    (process_pairs
        [(GTree.node "prod" [GTree.wc ⟨"cat", "1"⟩],
          GTree.node "sem" [GTree.wc ⟨"cat", "2"⟩])] []).2 = .error () ∧
    semPairOk (GTree.node "prod" [GTree.wc ⟨"cat", "1"⟩])
      (GTree.node "sem" [GTree.wc ⟨"cat", "1"⟩]) := by
  constructor
  · exact (claim_c6_unbound_wildcard
      [(GTree.node "prod" [GTree.wc ⟨"cat", "1"⟩],
        GTree.node "sem" [GTree.wc ⟨"cat", "2"⟩])] []).1.mpr
      ⟨(GTree.node "prod" [GTree.wc ⟨"cat", "1"⟩],
        GTree.node "sem" [GTree.wc ⟨"cat", "2"⟩]),
       List.mem_cons_self _ _, ⟨"cat", "2"⟩, by decide, by decide⟩
  · exact (claim_c6_unbound_wildcard
      [(GTree.node "prod" [GTree.wc ⟨"cat", "1"⟩],
        GTree.node "sem" [GTree.wc ⟨"cat", "1"⟩])] []).2
      (fun k v h => by cases h)
      (GTree.node "prod" [GTree.wc ⟨"cat", "1"⟩])
      (GTree.node "sem" [GTree.wc ⟨"cat", "1"⟩]) rfl

/-- C7: wildcards with an empty id receive no constraint entry, are never
recorded in any other wildcard's constraint set, read back as the default
empty set, and with an empty pending set the candidate loop accepts every
knowledge-base candidate: it equals the loop with no rejection at all. -/
theorem claim_c7_free_wildcards :
    (∀ (ws : List Wildcard) (v : Wildcard), v.id = "" →
      cmapMem (build_constraints ws) v = false) ∧
    (∀ (ws : List Wildcard) (u : Wildcard) (L : List Wildcard) (x : Wildcard),
      cmapGet (build_constraints ws) u = .cset L → x ∈ L → x.id ≠ "") ∧
    (∀ (cm : CMap) (v : Wildcard), cmapMem cm v = false → cmapGet cm v = .cset []) ∧
    (∀ (recur : GTree → CMap → Except Unit (List GTree)) (tree : GTree) (cm : CMap)
      (w : Wildcard) (cs : List String),
      populate_go recur tree cm w (.cset []) cs = populate_all recur tree cm w cs) :=
  ⟨fun ws v h => build_constraints_not_mem_empty_id ws v h,
   fun ws u L x h1 h2 => build_constraints_lists_nonempty_id ws u L x h1 h2,
   fun cm v h => cmapGet_of_not_mem cm v h,
   fun recur tree cm w cs => populate_go_free recur tree cm w cs⟩

theorem claim_c7_free_wildcards_witness :
    cmapMem (build_constraints [⟨"person", ""⟩, ⟨"person", "1"⟩]) ⟨"person", ""⟩ = false ∧
    populate_go (fun _ _ => .ok []) personTree [] ⟨"person", ""⟩ (.cset [])
        ["alice", "alice"] =
      populate_all (fun _ _ => .ok []) personTree [] ⟨"person", ""⟩ ["alice", "alice"] :=
  ⟨claim_c7_free_wildcards.1 [⟨"person", ""⟩, ⟨"person", "1"⟩] ⟨"person", ""⟩ rfl,
   claim_c7_free_wildcards.2.2.2 (fun _ _ => .ok []) personTree [] ⟨"person", ""⟩
     ["alice", "alice"]⟩

/-- C8: the search only ever writes to freshly allocated copies: replaying
__populate_with_constraints over an explicit store of (tree, constraints)
states, every pre-existing address, the caller's tree among them, is
unchanged after a full enumeration, the store only grows, and the yielded
groundings are exactly those of the pure search on the state at the given
address. -/
theorem claim_c8_copy_discipline (kb : String → List String) (fuel : Nat)
    (sigma : Store) (addr : Nat) :
    sigma.length ≤ ((populateSt kb fuel sigma addr).1).length ∧
    (∀ (j : Nat) (d : GTree × CMap), j < sigma.length →
      ((populateSt kb fuel sigma addr).1).getD j d = sigma.getD j d) ∧
    (populateSt kb fuel sigma addr).2 =
      populate kb fuel (sigma.getD addr default).1 (sigma.getD addr default).2 :=
  ⟨(populateSt_frame kb fuel sigma addr).1,
   (populateSt_frame kb fuel sigma addr).2,
   populateSt_spec kb fuel sigma addr⟩

theorem claim_c8_copy_discipline_witness :
    ((populateSt kbTwoPeople 3
        [(personTree, build_constraints (get_wildcards personTree))] 0).1).getD 0
      (GTree.tok "z", []) =
      [(personTree, build_constraints (get_wildcards personTree))].getD 0
        (GTree.tok "z", []) ∧
    (populateSt kbTwoPeople 3
        [(personTree, build_constraints (get_wildcards personTree))] 0).2 =
      populate kbTwoPeople 3 personTree (build_constraints (get_wildcards personTree)) := by
  have h := claim_c8_copy_discipline kbTwoPeople 3
    [(personTree, build_constraints (get_wildcards personTree))] 0
  exact ⟨h.2.1 0 (GTree.tok "z", []) (by decide), h.2.2⟩

/-- C9: after any loads, the rule-table entry of a symbol is its previous
entry followed, in load order, by the expanded alternative list of every
non-comment line with that left-hand side; loads compose by concatenation
of their line lists, and loading the same production twice leaves two equal
alternatives (no deduplication). -/
theorem claim_c9_rule_concatenation (r : RuleDict)
    (lines : List (Option String × List GTree)) (s : String) :
    (ruleLookupD (load_rules r lines).1 s =
      ruleLookupD r s ++
        (lines.filterMap
          (fun pl => if pl.1 = some s then some pl.2 else none)).flatten) ∧
    (∀ l2 : List (Option String × List GTree),
      (load_rules r (lines ++ l2)).1 = (load_rules (load_rules r lines).1 l2).1) ∧
    (∀ (sym : String) (t : GTree),
      ruleLookupD (load_rules [] [(some sym, [t]), (some sym, [t])]).1 sym = [t, t]) := by
  refine ⟨load_rules_lookup lines r s, fun l2 => load_rules_append lines l2 r, ?_⟩
  intro sym t
  rw [load_rules_lookup]
  simp [ruleLookupD, ruleLookup, List.filterMap_cons]

/-- C10: the assert False branch of __populate_with_constraints is
unreachable from generate_groundings: the search always returns a result
list and never the error that models the assertion, because a wildcard
picked as the first remaining one always still has a pending set entry,
substitution having removed every occurrence of each fixed wildcard. -/
theorem claim_c10_assert_unreachable (kb : String → List String) (tree : GTree) :
    ∃ gs, generate_groundings kb tree = .ok gs :=
  generate_groundings_ok kb tree


end GpsrGen
